import Mathlib

/-!
# Verification of the sigligo history-accumulation / correlation-graph pipeline

Shallow embedding of `src/main.py` (history update, correlation matrix,
graph building, orchestration), restricted to the core covered by the spec.
Python floats are modelled as exact rationals `ℚ` for stored prices and as
exact reals `ℝ` for correlation values (which involve square roots);
Python dicts are modelled as insertion-ordered association lists.
-/

set_option autoImplicit false
set_option maxRecDepth 8192

namespace Sigligo

/-- Constant `WINDOW_MAX`: the `[-336:]` slice bound in `update_history`. -/
def WINDOW_MAX : Nat := 336

/-- Constant `MIN_SAMPLES`: the `< 5` cutoff in `calculate_correlation`. -/
def MIN_SAMPLES : Nat := 5

/-- One entry of a record's `prices` list: `{"t": ..., "p": ...}`. -/
structure PricePoint where
  t : String
  p : ℚ
deriving DecidableEq

/-- One value of the history dict: `{"title": ..., "prices": [...]}`. -/
structure HistoryRecord where
  title : String
  prices : List PricePoint
deriving DecidableEq

/-- The history dict, as an insertion-ordered association list
(Python dicts preserve insertion order). -/
abbrev HistoryStore := List (String × HistoryRecord)

/-- One value of the snapshot dict produced by `fetch_current_prices`. -/
structure SnapData where
  title : String
  price : ℚ
  timestamp : String
  volume : ℚ
deriving DecidableEq

/-- The snapshot dict, insertion-ordered; keys are unique (it is a dict). -/
abbrev Snapshot := List (String × SnapData)

/-- Python dict lookup `d[k]` / `k in d` on the association-list model. -/
def lookupRec {α : Type} : List (String × α) → String → Option α
  | [], _ => none
  | kv :: rest, k => if kv.1 = k then some kv.2 else lookupRec rest k

/-- Python dict assignment `d[k] = v`: replaces in place if the key exists
(keeping its position), otherwise appends at the end. -/
def setRec {α : Type} : List (String × α) → String → α → List (String × α)
  | [], k, v => [(k, v)]
  | kv :: rest, k, v =>
    if kv.1 = k then (k, v) :: rest else kv :: setRec rest k v

/-- Python `l[-n:]`: the suffix of the most recent `n` elements. -/
def takeLast {α : Type} (n : Nat) (l : List α) : List α :=
  (l.reverse.take n).reverse

/-- The per-id body of the `update_history` loop: fetch the existing record
(or create `{"title": data["title"], "prices": []}`), append
`{"t": data["timestamp"], "p": data["price"]}`, keep only the last 336. -/
def appendPoint (old : Option HistoryRecord) (d : SnapData) : HistoryRecord :=
  let r := old.getD ⟨d.title, []⟩
  ⟨r.title, takeLast WINDOW_MAX (r.prices ++ [⟨d.timestamp, d.price⟩])⟩

/-- One iteration of the `update_history` loop for entry `(m_id, data)`. -/
def updateOne (h : HistoryStore) (m_id : String) (d : SnapData) : HistoryStore :=
  setRec h m_id (appendPoint (lookupRec h m_id) d)

/-- Function `update_history(history, snapshot)` from `src/main.py`. -/
def update_history (h : HistoryStore) (s : Snapshot) : HistoryStore :=
  s.foldl (fun acc kv => updateOne acc kv.1 kv.2) h

/-! ## Correlation engine (`calculate_correlation`)

The pandas steps are embedded as follows.  `pd.DataFrame(data_dict)` aligns
the qualifying series positionally on the index `range(maxLen)`, padding
shorter columns with `NaN`; a column is a `List (Option ℚ)` of length
`maxLen`, `none` standing for `NaN`.  `fillna(method="ffill")` propagates the
last defined value downward, `fillna(method="bfill")` the first defined value
upward, `dropna(axis=1, how="all")` removes all-`none` columns, and
`df.corr()` is pandas `nancorr`: for each pair of columns it restricts to the
rows where both are defined (`validIdx`) and computes the sample Pearson
correlation there, returning `NaN` (`none`) when there are no such rows or
when either centred sum of squares is zero. -/

/-- The raw price series of a record, in chronological order. -/
def seriesOf (r : HistoryRecord) : List ℚ :=
  r.prices.map (fun pt => pt.p)

/-- The `len(prices) < 5 → continue` filter: entries of the history whose
series qualifies, in insertion order. -/
def qualifying (h : HistoryStore) : HistoryStore :=
  h.filter (fun kv => decide (MIN_SAMPLES ≤ kv.2.prices.length))

/-- Number of rows of the data frame: the longest qualifying series. -/
def maxLen (h : HistoryStore) : Nat :=
  ((qualifying h).map (fun kv => kv.2.prices.length)).foldr max 0

/-- A series as a data-frame column of height `n`: defined where the series
has an entry, `NaN` (`none`) beyond its length. -/
def rawCol (n : Nat) (ps : List ℚ) : List (Option ℚ) :=
  (List.range n).map (fun i => ps.get? i)

/-- Forward fill with accumulator: `last` is the last defined value seen. -/
def ffillGo (last : Option ℚ) : List (Option ℚ) → List (Option ℚ)
  | [] => []
  | none :: rest => last :: ffillGo last rest
  | some v :: rest => some v :: ffillGo (some v) rest

/-- Pandas `fillna(method="ffill")` on one column. -/
def ffillList (c : List (Option ℚ)) : List (Option ℚ) :=
  ffillGo none c

/-- Pandas `fillna(method="bfill")` on one column: forward fill of the reversal. -/
def bfillList (c : List (Option ℚ)) : List (Option ℚ) :=
  (ffillGo none c.reverse).reverse

/-- A qualifying series as a column after both fill passes. -/
def filledCol (n : Nat) (ps : List ℚ) : List (Option ℚ) :=
  bfillList (ffillList (rawCol n ps))

/-- The data frame after `dropna(axis=1, how="all")`: the filled qualifying
columns, keyed by instrument id, minus any column that is entirely `NaN`. -/
def keptCols (h : HistoryStore) : List (String × List (Option ℚ)) :=
  ((qualifying h).map (fun kv => (kv.1, filledCol (maxLen h) (seriesOf kv.2)))).filter
    (fun c => c.2.any Option.isSome)

/-- Lookup `history[col]["title"]` (the key always exists when used; the `""`
default is unreachable). -/
def titleOf (h : HistoryStore) (id : String) : String :=
  match lookupRec h id with
  | some r => r.title
  | none => ""

/-- Rows where both columns are defined (pandas `nancorr` masks pairwise). -/
def validIdx (n : Nat) (cx cy : List (Option ℚ)) : Finset Nat :=
  (Finset.range n).filter (fun i => (cx.getD i none).isSome ∧ (cy.getD i none).isSome)

/-- The value of a column at a defined row (`0` default is unreachable on
rows of `validIdx`). -/
def colVal (c : List (Option ℚ)) (i : Nat) : ℚ :=
  (c.getD i none).getD 0

/-- Mean of `f` over the index set `s`. -/
def meanOn (s : Finset Nat) (f : Nat → ℚ) : ℚ :=
  (∑ i in s, f i) / (s.card : ℚ)

/-- Centred product sum `∑ (f i - mean f) * (g i - mean g)` over `s`; the
`N-1` denominators of covariance and standard deviation cancel in the
correlation, so only these sums matter. -/
def covOn (s : Finset Nat) (f g : Nat → ℚ) : ℚ :=
  ∑ i in s, (f i - meanOn s f) * (g i - meanOn s g)

/-- One entry of `df.corr()` for the column pair `(cx, cy)`: `none` is
pandas `NaN` (no valid rows, or a zero-variance column). -/
noncomputable def corrVal (n : Nat) (cx cy : List (Option ℚ)) : Option ℝ :=
  if validIdx n cx cy = ∅ ∨
      covOn (validIdx n cx cy) (colVal cx) (colVal cx) = 0 ∨
      covOn (validIdx n cx cy) (colVal cy) (colVal cy) = 0 then
    none
  else
    some (((covOn (validIdx n cx cy) (colVal cx) (colVal cy) : ℚ) : ℝ) /
      (Real.sqrt ((covOn (validIdx n cx cy) (colVal cx) (colVal cx) : ℚ) : ℝ) *
        Real.sqrt ((covOn (validIdx n cx cy) (colVal cy) (colVal cy) : ℚ) : ℝ)))

/-- Python `round(val, 2)` on exact reals: round to the nearest hundredth. -/
noncomputable def round2 (x : ℝ) : ℝ :=
  ((round (100 * x) : ℤ) : ℝ) / 100

/-- A node of the output graph. -/
structure Node where
  id : String
  label : String
  val : Nat
deriving DecidableEq

/-- A link of the output graph. -/
structure Link where
  source : String
  target : String
  value : ℝ

/-- The loop body of the link-building double loop: skip `NaN`
(`pd.isna(val): continue`), keep the pair when `abs(val) >= threshold`,
storing `round(val, 2)`. -/
noncomputable def mkLink (thr : ℝ) (a b : String) (v : Option ℝ) : Option Link :=
  match v with
  | none => none
  | some v => if thr ≤ |v| then some ⟨a, b, round2 v⟩ else none

/-- All pairs `(l[i], l[j])` with `i < j`, in the double-loop order of the
source. -/
def pairsList {α : Type} : List α → List (α × α)
  | [] => []
  | x :: xs => xs.map (fun y => (x, y)) ++ pairsList xs

/-- Function `calculate_correlation(history)` from `src/main.py`, with the
`MIN_CORRELATION` configuration value passed explicitly.  The first empty
test is `if not data_dict`, the second `if df.empty` (the frame has
`maxLen ≥ 5 > 0` rows whenever `data_dict` is nonempty, so it is empty
exactly when every column was dropped). -/
noncomputable def calculate_correlation (h : HistoryStore) (thr : ℝ) :
    List Node × List Link :=
  if qualifying h = [] then ([], [])
  else
    let cols := keptCols h
    if cols = [] then ([], [])
    else
      (cols.map (fun c => ⟨c.1, titleOf h c.1, 1⟩),
        (pairsList cols).filterMap
          (fun cc => mkLink thr cc.1.1 cc.2.1 (corrVal (maxLen h) cc.1.2 cc.2.2)))

/-- The `i`-th column of the data frame (the dummy empty column for an
out-of-range index has no valid rows). -/
def colAt (h : HistoryStore) (i : Nat) : List (Option ℚ) :=
  ((keptCols h).getD i ("", [])).2

/-- The entry of `df.corr()` at column indices `(i, j)`. -/
noncomputable def matrixEntry (h : HistoryStore) (i j : Nat) : Option ℝ :=
  corrVal (maxLen h) (colAt h i) (colAt h j)

/-- The centred sum of squares of column `i` over its own valid rows
(zero variance of the column means this sum is `0`). -/
def varAt (h : HistoryStore) (i : Nat) : ℚ :=
  covOn (validIdx (maxLen h) (colAt h i) (colAt h i)) (colVal (colAt h i)) (colVal (colAt h i))

/-! ## Pipeline (`main`) -/

/-- The two persisted files, as values. -/
structure RunState where
  historyFile : HistoryStore
  graphFile : List Node × List Link
deriving Nonempty

/-- One run of `main()`, with fetching and file I/O abstracted to values:
the snapshot is the run's input, the returned state holds the persisted
files, and the string is the run's report.  An empty snapshot aborts the
run before any write. -/
noncomputable def run_main (st : RunState) (snapshot : Snapshot) (thr : ℝ) :
    RunState × String :=
  if snapshot = [] then (st, "⚠️ No data fetched.")
  else
    let updated := update_history st.historyFile snapshot
    let g := calculate_correlation updated thr
    (⟨updated, g⟩, "✅ Update complete")

/-! ## Concrete fixtures used by witnesses and counterexamples -/

/-- A store holding one record with 337 retained points (e.g. produced under
a larger window configuration). -/
def hOversize : HistoryStore :=
  [("X", ⟨"X", List.replicate 337 ⟨"", 1⟩⟩)]

/-- A store holding one record with exactly 336 retained points. -/
def hFull : HistoryStore :=
  [("X", ⟨"X", List.replicate 336 ⟨"", 1⟩⟩)]

/-- A snapshot carrying instrument `X` under a different title. -/
def snapX : Snapshot :=
  [("X", ⟨"X retitled", 1, "t1", 1⟩)]

/-- A store with a single constant (zero-variance) qualifying series. -/
def hConst : HistoryStore :=
  [("A", ⟨"Alpha", [⟨"", 1⟩, ⟨"", 1⟩, ⟨"", 1⟩, ⟨"", 1⟩, ⟨"", 1⟩]⟩)]

/-- A store with two identical non-constant qualifying series. -/
def hPair : HistoryStore :=
  [("A", ⟨"Alpha", [⟨"", 0⟩, ⟨"", 0⟩, ⟨"", 0⟩, ⟨"", 0⟩, ⟨"", 1⟩]⟩),
   ("B", ⟨"Beta", [⟨"", 0⟩, ⟨"", 0⟩, ⟨"", 0⟩, ⟨"", 0⟩, ⟨"", 1⟩]⟩)]

/-! ## Basic lemmas on the dict model -/

theorem lookupRec_setRec_self {α : Type} (l : List (String × α)) (k : String) (v : α) :
    lookupRec (setRec l k v) k = some v := by
  induction l with
  | nil => simp [setRec, lookupRec]
  | cons kv rest ih =>
    by_cases hk : kv.1 = k
    · simp [setRec, hk, lookupRec]
    · simp [setRec, hk, lookupRec, ih]

theorem lookupRec_setRec_ne {α : Type} (l : List (String × α)) (k k' : String) (v : α)
    (hne : k ≠ k') : lookupRec (setRec l k v) k' = lookupRec l k' := by
  induction l with
  | nil => simp [setRec, lookupRec, hne]
  | cons kv rest ih =>
    by_cases hk : kv.1 = k
    · simp [setRec, hk, lookupRec, hne]
    · simp [setRec, hk, lookupRec, ih]

theorem mem_setRec {α : Type} (l : List (String × α)) (k : String) (v : α) (kv : String × α)
    (hmem : kv ∈ setRec l k v) : kv = (k, v) ∨ kv ∈ l := by
  induction l with
  | nil => simpa [setRec] using hmem
  | cons kv' rest ih =>
    by_cases hk : kv'.1 = k
    · simp only [setRec, hk, if_pos] at hmem
      rcases List.mem_cons.mp hmem with h | h
      · exact Or.inl h
      · exact Or.inr (List.mem_cons_of_mem _ h)
    · simp only [setRec, hk, if_neg, not_false_iff] at hmem
      rcases List.mem_cons.mp hmem with h | h
      · exact Or.inr (h ▸ List.mem_cons_self _ _)
      · rcases ih h with h' | h'
        · exact Or.inl h'
        · exact Or.inr (List.mem_cons_of_mem _ h')

/-- Keys absent from the snapshot are never looked up nor assigned. -/
theorem lookupRec_update_history_not_mem (s : Snapshot) (h : HistoryStore) (id : String)
    (hid : id ∉ s.map Prod.fst) :
    lookupRec (update_history h s) id = lookupRec h id := by
  induction s generalizing h with
  | nil => rfl
  | cons kv rest ih =>
    simp only [List.map_cons, List.mem_cons, not_or] at hid
    have step : lookupRec (updateOne h kv.1 kv.2) id = lookupRec h id :=
      lookupRec_setRec_ne _ _ _ _ (fun e => hid.1 e.symm)
    calc lookupRec (update_history (updateOne h kv.1 kv.2) rest) id
        = lookupRec (updateOne h kv.1 kv.2) id := ih _ hid.2
      _ = lookupRec h id := step

/-- For a key present in a duplicate-free snapshot, the updated store holds
exactly the record obtained by appending that snapshot point to the old
record and truncating. -/
theorem lookupRec_update_history_mem (s : Snapshot) (h : HistoryStore) (id : String)
    (d : SnapData) (hnd : (s.map Prod.fst).Nodup) (hmem : (id, d) ∈ s) :
    lookupRec (update_history h s) id = some (appendPoint (lookupRec h id) d) := by
  induction s generalizing h with
  | nil => cases hmem
  | cons kv rest ih =>
    simp only [List.map_cons, List.nodup_cons] at hnd
    rcases List.mem_cons.mp hmem with heq | hrest
    · cases heq
      have hid : id ∉ rest.map Prod.fst := hnd.1
      calc lookupRec (update_history (updateOne h id d) rest) id
          = lookupRec (updateOne h id d) id :=
            lookupRec_update_history_not_mem rest _ id hid
        _ = some (appendPoint (lookupRec h id) d) := lookupRec_setRec_self _ _ _
    · have hne : kv.1 ≠ id := by
        intro e
        exact hnd.1 (e ▸ List.mem_map_of_mem Prod.fst hrest)
      have hkeep : lookupRec (updateOne h kv.1 kv.2) id = lookupRec h id :=
        lookupRec_setRec_ne _ _ _ _ hne
      rw [show update_history h (kv :: rest) = update_history (updateOne h kv.1 kv.2) rest
            from rfl,
          ih (updateOne h kv.1 kv.2) hnd.2 hrest, hkeep]

/-! ## Truncation lemmas -/

theorem takeLast_length_le {α : Type} (n : Nat) (l : List α) : (takeLast n l).length ≤ n := by
  simp only [takeLast, List.length_reverse, List.length_take]
  omega

/-- Truncation `takeLast n` is exactly the `n`-element suffix: the most recent entries
in append order, oldest dropped first. -/
theorem takeLast_eq_drop {α : Type} (n : Nat) (l : List α) :
    takeLast n l = l.drop (l.length - n) := by
  induction l with
  | nil => simp [takeLast]
  | cons x rest ih =>
    by_cases hn : rest.length + 1 ≤ n
    · have h1 : (x :: rest).length - n = 0 := by simp; omega
      rw [h1, List.drop_zero, takeLast, List.take_of_length_le (by simp; omega),
        List.reverse_reverse]
    · have h1 : (x :: rest).length - n = (rest.length - n) + 1 := by simp; omega
      rw [h1, List.drop_succ_cons, ← ih, takeLast, takeLast, List.reverse_cons,
        List.take_append_of_le_length (by simp; omega)]

theorem update_history_length_le (s : Snapshot) (h : HistoryStore)
    (hinv : ∀ kv ∈ h, kv.2.prices.length ≤ WINDOW_MAX) :
    ∀ kv ∈ update_history h s, kv.2.prices.length ≤ WINDOW_MAX := by
  induction s generalizing h with
  | nil => exact hinv
  | cons kv0 rest ih =>
    refine ih (updateOne h kv0.1 kv0.2) ?_
    intro kv hkv
    rcases mem_setRec _ _ _ _ hkv with he | he
    · subst he
      simpa [appendPoint] using
        takeLast_length_le WINDOW_MAX
          (((lookupRec h kv0.1).getD ⟨kv0.2.title, []⟩).prices ++
            [⟨kv0.2.timestamp, kv0.2.price⟩])
    · exact hinv _ he

/-! ## Fill-pass lemmas -/

theorem length_ffillGo (last : Option ℚ) (c : List (Option ℚ)) :
    (ffillGo last c).length = c.length := by
  induction c generalizing last with
  | nil => rfl
  | cons x rest ih => cases x <;> simp [ffillGo, ih]

theorem length_filledCol (n : Nat) (ps : List ℚ) : (filledCol n ps).length = n := by
  simp [filledCol, bfillList, ffillList, length_ffillGo, rawCol]

theorem ffillGo_allSome_of_some (v : ℚ) (c : List (Option ℚ)) :
    ∀ x ∈ ffillGo (some v) c, x.isSome := by
  induction c generalizing v with
  | nil => simp [ffillGo]
  | cons y rest ih =>
    cases y with
    | none =>
      intro x hx
      rcases List.mem_cons.mp hx with rfl | hx
      · rfl
      · exact ih v x hx
    | some w =>
      intro x hx
      rcases List.mem_cons.mp hx with rfl | hx
      · rfl
      · exact ih w x hx

theorem mem_ffillGo (last : Option ℚ) (c : List (Option ℚ)) :
    ∀ x ∈ ffillGo last c, x = last ∨ x ∈ c := by
  induction c generalizing last with
  | nil => simp [ffillGo]
  | cons y rest ih =>
    cases y with
    | none =>
      intro x hx
      rcases List.mem_cons.mp hx with rfl | hx
      · exact Or.inl rfl
      · rcases ih last x hx with h' | h'
        · exact Or.inl h'
        · exact Or.inr (List.mem_cons_of_mem _ h')
    | some w =>
      intro x hx
      rcases List.mem_cons.mp hx with rfl | hx
      · exact Or.inr (List.mem_cons_self _ _)
      · rcases ih (some w) x hx with h' | h'
        · exact Or.inr (h' ▸ List.mem_cons_self _ _)
        · exact Or.inr (List.mem_cons_of_mem _ h')

theorem ffillGo_eq_of_allSome (last : Option ℚ) (c : List (Option ℚ))
    (h : ∀ x ∈ c, x.isSome) : ffillGo last c = c := by
  induction c generalizing last with
  | nil => rfl
  | cons y rest ih =>
    cases y with
    | none => exact absurd (h none (List.mem_cons_self _ _)) (by simp)
    | some w =>
      simp only [ffillGo]
      rw [ih (some w) (fun x hx => h x (List.mem_cons_of_mem _ hx))]

theorem bfillList_eq_of_allSome (c : List (Option ℚ)) (h : ∀ x ∈ c, x.isSome) :
    bfillList c = c := by
  rw [bfillList, ffillGo_eq_of_allSome none _ (fun x hx => h x (List.mem_reverse.mp hx)),
    List.reverse_reverse]

theorem ffillList_allSome_of_head (c : List (Option ℚ)) (v : ℚ)
    (h : c.getD 0 none = some v) : ∀ x ∈ ffillList c, x.isSome := by
  cases c with
  | nil => cases h
  | cons y rest =>
    rw [List.getD_cons_zero] at h
    subst h
    intro x hx
    rw [show ffillList (some v :: rest) = some v :: ffillGo (some v) rest from rfl] at hx
    rcases List.mem_cons.mp hx with rfl | hx
    · rfl
    · exact ffillGo_allSome_of_some v rest x hx

theorem filledCol_allSome (n : Nat) (ps : List ℚ) (hn : 0 < n) (hps : ps ≠ []) :
    ∀ x ∈ filledCol n ps, x.isSome := by
  obtain ⟨q, tail, rfl⟩ : ∃ q t, ps = q :: t := by
    cases ps with
    | nil => exact absurd rfl hps
    | cons q t => exact ⟨q, t, rfl⟩
  have hhead : (rawCol n (q :: tail)).getD 0 none = some q := by
    have hlen : 0 < (rawCol n (q :: tail)).length := by
      simpa [rawCol] using hn
    rw [List.getD_eq_getElem _ none hlen]
    simp [rawCol]
  have hff : ∀ x ∈ ffillList (rawCol n (q :: tail)), x.isSome :=
    ffillList_allSome_of_head _ q hhead
  intro x hx
  rw [filledCol, bfillList_eq_of_allSome _ hff] at hx
  exact hff x hx

theorem mem_rawCol (n : Nat) (ps : List ℚ) (x : Option ℚ) (hx : x ∈ rawCol n ps) :
    x = none ∨ ∃ q ∈ ps, x = some q := by
  rw [rawCol, List.mem_map] at hx
  obtain ⟨i, _, rfl⟩ := hx
  cases hg : ps.get? i with
  | none => exact Or.inl rfl
  | some q => exact Or.inr ⟨q, List.get?_mem hg, rfl⟩

theorem filledCol_const (n : Nat) (ps : List ℚ) (cst : ℚ) (hconst : ∀ q ∈ ps, q = cst) :
    ∀ x ∈ filledCol n ps, x = none ∨ x = some cst := by
  have hP : ∀ x ∈ rawCol n ps, x = none ∨ x = some cst := by
    intro x hx
    rcases mem_rawCol n ps x hx with h' | ⟨q, hq, rfl⟩
    · exact Or.inl h'
    · exact Or.inr (by rw [hconst q hq])
  have hP1 : ∀ x ∈ ffillList (rawCol n ps), x = none ∨ x = some cst := by
    intro x hx
    rcases mem_ffillGo none _ x hx with rfl | hx
    · exact Or.inl rfl
    · exact hP x hx
  intro x hx
  rw [filledCol, bfillList] at hx
  rw [List.mem_reverse] at hx
  rcases mem_ffillGo none _ x hx with rfl | hx
  · exact Or.inl rfl
  · exact hP1 x (List.mem_reverse.mp hx)

theorem colVal_const (c : List (Option ℚ)) (cst : ℚ)
    (hc : ∀ x ∈ c, x = none ∨ x = some cst) (i : Nat)
    (hi : (c.getD i none).isSome) : colVal c i = cst := by
  by_cases hlen : i < c.length
  · have hci : c.getD i none = c.get ⟨i, hlen⟩ := List.getD_eq_getElem c none hlen
    have hmem : c.get ⟨i, hlen⟩ ∈ c := List.get_mem c i hlen
    rcases hc _ hmem with h' | h'
    · rw [hci, h'] at hi
      cases hi
    · rw [colVal, hci, h']
      rfl
  · rw [List.getD_eq_default c none (by omega)] at hi
    cases hi

/-! ## Mean / centred-sum lemmas -/

theorem meanOn_const (s : Finset Nat) (f : Nat → ℚ) (cst : ℚ) (hf : ∀ i ∈ s, f i = cst)
    (hs : s ≠ ∅) : meanOn s f = cst := by
  have hcard : (s.card : ℚ) ≠ 0 :=
    Nat.cast_ne_zero.mpr (Finset.card_ne_zero.mpr (Finset.nonempty_of_ne_empty hs))
  rw [meanOn, Finset.sum_congr rfl hf, Finset.sum_const, nsmul_eq_mul]
  field_simp

theorem covOn_zero_of_const_left (s : Finset Nat) (f g : Nat → ℚ) (cst : ℚ)
    (hf : ∀ i ∈ s, f i = cst) : covOn s f g = 0 := by
  rcases eq_or_ne s ∅ with rfl | hs
  · simp [covOn]
  · rw [covOn]
    refine Finset.sum_eq_zero (fun i hi => ?_)
    rw [hf i hi, meanOn_const s f cst hf hs]
    ring

theorem covOn_self_nonneg (s : Finset Nat) (f : Nat → ℚ) : 0 ≤ covOn s f f :=
  Finset.sum_nonneg (fun _ _ => mul_self_nonneg _)

theorem covOn_comm (s : Finset Nat) (f g : Nat → ℚ) : covOn s f g = covOn s g f :=
  Finset.sum_congr rfl (fun _ _ => mul_comm _ _)

theorem covOn_self_eq_zero_const (s : Finset Nat) (f : Nat → ℚ) (h : covOn s f f = 0) :
    ∀ i ∈ s, f i = meanOn s f := by
  intro i hi
  have h0 := (Finset.sum_eq_zero_iff_of_nonneg
    (fun j _ => mul_self_nonneg (f j - meanOn s f))).mp h i hi
  have := mul_self_eq_zero.mp h0
  linarith

theorem covOn_sq_le (s : Finset Nat) (f g : Nat → ℚ) :
    (covOn s f g) ^ 2 ≤ covOn s f f * covOn s g g := by
  have h := Finset.sum_mul_sq_le_sq_mul_sq s (fun i => f i - meanOn s f)
    (fun i => g i - meanOn s g)
  have e1 : covOn s f f = ∑ i in s, (f i - meanOn s f) ^ 2 :=
    Finset.sum_congr rfl (fun i _ => (pow_two _).symm)
  have e2 : covOn s g g = ∑ i in s, (g i - meanOn s g) ^ 2 :=
    Finset.sum_congr rfl (fun i _ => (pow_two _).symm)
  rw [covOn, e1, e2]
  exact h

/-! ## Valid-row-set lemmas -/

theorem validIdx_comm (n : Nat) (cx cy : List (Option ℚ)) :
    validIdx n cx cy = validIdx n cy cx :=
  Finset.filter_congr (fun _ _ => and_comm)

theorem validIdx_subset_left (n : Nat) (cx cy : List (Option ℚ)) :
    validIdx n cx cy ⊆ validIdx n cx cx := by
  intro i hi
  simp only [validIdx, Finset.mem_filter] at hi ⊢
  exact ⟨hi.1, hi.2.1, hi.2.1⟩

theorem validIdx_eq_range (n : Nat) (cx cy : List (Option ℚ))
    (hx : ∀ x ∈ cx, x.isSome) (hy : ∀ y ∈ cy, y.isSome)
    (hlx : cx.length = n) (hly : cy.length = n) :
    validIdx n cx cy = Finset.range n := by
  rw [validIdx, Finset.filter_true_of_mem]
  intro i hi
  rw [Finset.mem_range] at hi
  have hix : i < cx.length := by omega
  have hiy : i < cy.length := by omega
  constructor
  · rw [List.getD_eq_getElem cx none hix]
    exact hx _ (List.get_mem cx i hix)
  · rw [List.getD_eq_getElem cy none hiy]
    exact hy _ (List.get_mem cy i hiy)

/-! ## Correlation-entry lemmas -/

theorem corrVal_eq_none_iff (n : Nat) (cx cy : List (Option ℚ)) :
    corrVal n cx cy = none ↔
      validIdx n cx cy = ∅ ∨
        covOn (validIdx n cx cy) (colVal cx) (colVal cx) = 0 ∨
        covOn (validIdx n cx cy) (colVal cy) (colVal cy) = 0 := by
  rw [corrVal]
  split_ifs with hc
  · simp [hc]
  · simp [hc]

theorem corrVal_comm (n : Nat) (cx cy : List (Option ℚ)) :
    corrVal n cx cy = corrVal n cy cx := by
  rw [corrVal, corrVal, validIdx_comm n cy cx,
    covOn_comm (validIdx n cx cy) (colVal cy) (colVal cx)]
  by_cases hP : validIdx n cx cy = ∅ ∨
      covOn (validIdx n cx cy) (colVal cx) (colVal cx) = 0 ∨
      covOn (validIdx n cx cy) (colVal cy) (colVal cy) = 0
  · rw [if_pos hP, if_pos (by tauto)]
  · rw [if_neg hP, if_neg (by tauto), mul_comm]

theorem corrVal_self_eq_one (n : Nat) (c : List (Option ℚ))
    (h : covOn (validIdx n c c) (colVal c) (colVal c) ≠ 0) :
    corrVal n c c = some 1 := by
  have hs : validIdx n c c ≠ ∅ := by
    intro e
    apply h
    rw [e]
    simp [covOn]
  rw [corrVal, if_neg (by tauto)]
  have hnn : (0 : ℚ) ≤ covOn (validIdx n c c) (colVal c) (colVal c) := covOn_self_nonneg _ _
  have hR : (0 : ℝ) ≤ ((covOn (validIdx n c c) (colVal c) (colVal c) : ℚ) : ℝ) := by
    exact_mod_cast hnn
  rw [Real.mul_self_sqrt hR]
  congr 1
  refine div_self ?_
  exact_mod_cast h

theorem corrVal_abs_le_one (n : Nat) (cx cy : List (Option ℚ)) (v : ℝ)
    (hv : corrVal n cx cy = some v) : |v| ≤ 1 := by
  rw [corrVal] at hv
  by_cases hP : validIdx n cx cy = ∅ ∨
      covOn (validIdx n cx cy) (colVal cx) (colVal cx) = 0 ∨
      covOn (validIdx n cx cy) (colVal cy) (colVal cy) = 0
  · rw [if_pos hP] at hv
    cases hv
  · rw [if_neg hP] at hv
    push_neg at hP
    obtain ⟨_, hxx, hyy⟩ := hP
    have hApos : (0 : ℚ) < covOn (validIdx n cx cy) (colVal cx) (colVal cx) :=
      lt_of_le_of_ne (covOn_self_nonneg _ _) (Ne.symm hxx)
    have hBpos : (0 : ℚ) < covOn (validIdx n cx cy) (colVal cy) (colVal cy) :=
      lt_of_le_of_ne (covOn_self_nonneg _ _) (Ne.symm hyy)
    have hCS := covOn_sq_le (validIdx n cx cy) (colVal cx) (colVal cy)
    have hAposR : (0 : ℝ) < ((covOn (validIdx n cx cy) (colVal cx) (colVal cx) : ℚ) : ℝ) := by
      exact_mod_cast hApos
    have hBposR : (0 : ℝ) < ((covOn (validIdx n cx cy) (colVal cy) (colVal cy) : ℚ) : ℝ) := by
      exact_mod_cast hBpos
    have hCSR : (((covOn (validIdx n cx cy) (colVal cx) (colVal cy) : ℚ) : ℝ)) ^ 2 ≤
        ((covOn (validIdx n cx cy) (colVal cx) (colVal cx) : ℚ) : ℝ) *
          ((covOn (validIdx n cx cy) (colVal cy) (colVal cy) : ℚ) : ℝ) := by
      exact_mod_cast hCS
    have hden : 0 < Real.sqrt ((covOn (validIdx n cx cy) (colVal cx) (colVal cx) : ℚ) : ℝ) *
        Real.sqrt ((covOn (validIdx n cx cy) (colVal cy) (colVal cy) : ℚ) : ℝ) :=
      mul_pos (Real.sqrt_pos.mpr hAposR) (Real.sqrt_pos.mpr hBposR)
    have hnum : |((covOn (validIdx n cx cy) (colVal cx) (colVal cy) : ℚ) : ℝ)| ≤
        Real.sqrt ((covOn (validIdx n cx cy) (colVal cx) (colVal cx) : ℚ) : ℝ) *
          Real.sqrt ((covOn (validIdx n cx cy) (colVal cy) (colVal cy) : ℚ) : ℝ) := by
      rw [← Real.sqrt_sq_eq_abs, ← Real.sqrt_mul hAposR.le]
      exact Real.sqrt_le_sqrt hCSR
    injection hv with hv
    subst hv
    rw [abs_div, abs_of_pos hden]
    exact (div_le_one hden).mpr hnum

/-! ## Rounding lemmas -/

theorem round_le_round_of_le {x y : ℝ} (h : x ≤ y) : round x ≤ round y := by
  rw [round_eq, round_eq]
  exact Int.floor_le_floor (by linarith)

theorem round2_bounds (x : ℝ) (h : |x| ≤ 1) : -1 ≤ round2 x ∧ round2 x ≤ 1 := by
  rw [abs_le] at h
  have hlo : (-100 : ℤ) ≤ round (100 * x) := by
    have h1 := round_le_round_of_le (x := ((-100 : ℤ) : ℝ)) (y := 100 * x)
      (by push_cast; linarith)
    rwa [round_intCast] at h1
  have hhi : round (100 * x) ≤ (100 : ℤ) := by
    have h1 := round_le_round_of_le (x := 100 * x) (y := ((100 : ℤ) : ℝ))
      (by push_cast; linarith)
    rwa [round_intCast] at h1
  have hloR : (-100 : ℝ) ≤ ((round (100 * x) : ℤ) : ℝ) := by exact_mod_cast hlo
  have hhiR : ((round (100 * x) : ℤ) : ℝ) ≤ 100 := by exact_mod_cast hhi
  rw [round2]
  constructor
  · linarith
  · linarith

theorem round2_nonneg (x : ℝ) (h : 0 ≤ x) : 0 ≤ round2 x := by
  have h0 : (0 : ℤ) ≤ round (100 * x) := by
    have h1 := round_le_round_of_le (x := (0 : ℝ)) (y := 100 * x) (by linarith)
    rwa [round_zero] at h1
  have h0R : (0 : ℝ) ≤ ((round (100 * x) : ℤ) : ℝ) := by exact_mod_cast h0
  rw [round2]
  linarith

theorem round2_nonpos (x : ℝ) (h : x ≤ 0) : round2 x ≤ 0 := by
  have h0 : round (100 * x) ≤ (0 : ℤ) := by
    have h1 := round_le_round_of_le (x := 100 * x) (y := (0 : ℝ)) (by linarith)
    rwa [round_zero] at h1
  have h0R : ((round (100 * x) : ℤ) : ℝ) ≤ 0 := by exact_mod_cast h0
  rw [round2]
  linarith

/-! ## Data-frame column lemmas -/

theorem mem_qualifying_iff (h : HistoryStore) (kv : String × HistoryRecord) :
    kv ∈ qualifying h ↔ kv ∈ h ∧ MIN_SAMPLES ≤ kv.2.prices.length := by
  rw [qualifying, List.mem_filter]
  simp

theorem le_foldr_max (l : List Nat) (x : Nat) (hx : x ∈ l) : x ≤ l.foldr max 0 := by
  induction l with
  | nil => cases hx
  | cons y rest ih =>
    rw [List.foldr_cons]
    rcases List.mem_cons.mp hx with rfl | hx
    · exact le_max_left _ _
    · exact le_trans (ih hx) (le_max_right _ _)

theorem le_maxLen (h : HistoryStore) (kv : String × HistoryRecord)
    (hkv : kv ∈ qualifying h) : kv.2.prices.length ≤ maxLen h :=
  le_foldr_max _ _ (List.mem_map_of_mem _ hkv)

theorem mem_keptCols (h : HistoryStore) (c : String × List (Option ℚ))
    (hc : c ∈ keptCols h) :
    ∃ kv ∈ qualifying h, c = (kv.1, filledCol (maxLen h) (seriesOf kv.2)) := by
  rw [keptCols, List.mem_filter, List.mem_map] at hc
  obtain ⟨⟨kv, hkv, rfl⟩, _⟩ := hc
  exact ⟨kv, hkv, rfl⟩

theorem keptCols_col_spec (h : HistoryStore) (c : String × List (Option ℚ))
    (hc : c ∈ keptCols h) :
    (∀ x ∈ c.2, x.isSome) ∧ c.2.length = maxLen h := by
  obtain ⟨kv, hkv, rfl⟩ := mem_keptCols h c hc
  have h5 := ((mem_qualifying_iff h kv).mp hkv).2
  have hml := le_maxLen h kv hkv
  have hn : 0 < maxLen h := by
    unfold MIN_SAMPLES at h5
    omega
  have hlen : 0 < (seriesOf kv.2).length := by
    unfold MIN_SAMPLES at h5
    simpa [seriesOf] using by omega
  exact ⟨filledCol_allSome _ _ hn (List.ne_nil_of_length_pos hlen), length_filledCol _ _⟩

theorem keptCols_eq (h : HistoryStore) :
    keptCols h = (qualifying h).map (fun kv => (kv.1, filledCol (maxLen h) (seriesOf kv.2))) := by
  rw [keptCols]
  apply List.filter_eq_self.mpr
  intro c hc
  rw [List.mem_map] at hc
  obtain ⟨kv, hkv, rfl⟩ := hc
  have h5 := ((mem_qualifying_iff h kv).mp hkv).2
  have hn : 0 < maxLen h := by
    have := le_maxLen h kv hkv
    unfold MIN_SAMPLES at h5
    omega
  have hlen : 0 < (seriesOf kv.2).length := by
    unfold MIN_SAMPLES at h5
    simpa [seriesOf] using by omega
  have hsome := filledCol_allSome (maxLen h) (seriesOf kv.2) hn (List.ne_nil_of_length_pos hlen)
  have hcollen := length_filledCol (maxLen h) (seriesOf kv.2)
  obtain ⟨x, hx⟩ := List.exists_mem_of_ne_nil _
    (List.ne_nil_of_length_pos (l := filledCol (maxLen h) (seriesOf kv.2)) (by omega))
  rw [List.any_eq_true]
  exact ⟨x, hx, hsome x hx⟩

/-! ## Pair-loop lemmas -/

theorem mem_of_mem_pairsList {α : Type} (l : List α) (p : α × α) (hp : p ∈ pairsList l) :
    p.1 ∈ l ∧ p.2 ∈ l := by
  induction l with
  | nil => cases hp
  | cons x xs ih =>
    rw [pairsList, List.mem_append] at hp
    rcases hp with hp | hp
    · rw [List.mem_map] at hp
      obtain ⟨y, hy, rfl⟩ := hp
      exact ⟨List.mem_cons_self _ _, List.mem_cons_of_mem _ hy⟩
    · obtain ⟨h1, h2⟩ := ih hp
      exact ⟨List.mem_cons_of_mem _ h1, List.mem_cons_of_mem _ h2⟩

theorem pairsList_fst_ne {β : Type} (l : List (String × β))
    (hnd : (l.map Prod.fst).Nodup) (p : (String × β) × (String × β))
    (hp : p ∈ pairsList l) : p.1.1 ≠ p.2.1 := by
  induction l with
  | nil => cases hp
  | cons x xs ih =>
    rw [List.map_cons, List.nodup_cons] at hnd
    rw [pairsList, List.mem_append] at hp
    rcases hp with hp | hp
    · rw [List.mem_map] at hp
      obtain ⟨y, hy, rfl⟩ := hp
      intro e
      exact hnd.1 (by rw [e]; exact List.mem_map_of_mem Prod.fst hy)
    · exact ih hnd.2 hp

theorem pairsList_pairwise_keys {β : Type} (l : List (String × β))
    (hnd : (l.map Prod.fst).Nodup) :
    List.Pairwise (fun p q =>
      ¬((p.1.1 = q.1.1 ∧ p.2.1 = q.2.1) ∨ (p.1.1 = q.2.1 ∧ p.2.1 = q.1.1)))
      (pairsList l) := by
  induction l with
  | nil => exact List.Pairwise.nil
  | cons x xs ih =>
    rw [List.map_cons, List.nodup_cons] at hnd
    rw [pairsList]
    apply List.pairwise_append.mpr
    refine ⟨?_, ih hnd.2, ?_⟩
    · rw [List.pairwise_map]
      have hp : xs.Pairwise (fun a b => a.1 ≠ b.1) := List.pairwise_map.mp hnd.2
      refine hp.imp ?_
      intro a b hab hcon
      rcases hcon with ⟨_, e2⟩ | ⟨e1, e2⟩
      · exact hab e2
      · exact hab (e2.trans e1)
    · intro p hp q hq
      rw [List.mem_map] at hp
      obtain ⟨y, _, rfl⟩ := hp
      have hq12 := mem_of_mem_pairsList xs q hq
      intro hcon
      rcases hcon with ⟨e1, _⟩ | ⟨e1, _⟩
      · exact hnd.1 (by rw [e1]; exact List.mem_map_of_mem Prod.fst hq12.1)
      · exact hnd.1 (by rw [e1]; exact List.mem_map_of_mem Prod.fst hq12.2)

theorem pairwise_filterMap_of_pairwise {α β : Type} (R : α → α → Prop) (S : β → β → Prop)
    (f : α → Option β) (l : List α) (hl : List.Pairwise R l)
    (hf : ∀ a b x y, R a b → f a = some x → f b = some y → S x y) :
    List.Pairwise S (l.filterMap f) := by
  induction l with
  | nil => exact List.Pairwise.nil
  | cons a l ih =>
    rw [List.pairwise_cons] at hl
    rw [List.filterMap_cons]
    cases hfa : f a with
    | none => exact ih hl.2
    | some x =>
      refine List.Pairwise.cons ?_ (ih hl.2)
      intro y hy
      rw [List.mem_filterMap] at hy
      obtain ⟨b, hb, hfb⟩ := hy
      exact hf a b x y (hl.1 b hb) hfa hfb

theorem mkLink_some_elim (thr : ℝ) (a b : String) (v : Option ℝ) (l : Link)
    (h : mkLink thr a b v = some l) :
    ∃ w, v = some w ∧ thr ≤ |w| ∧ l = ⟨a, b, round2 w⟩ := by
  cases v with
  | none => cases h
  | some w =>
    by_cases hc : thr ≤ |w|
    · refine ⟨w, rfl, hc, ?_⟩
      simp only [mkLink, if_pos hc] at h
      exact (Option.some.inj h).symm
    · simp only [mkLink, if_neg hc] at h
      cases h

/-! ## Node-list lemma -/

theorem nodes_ids (h : HistoryStore) (thr : ℝ) :
    (calculate_correlation h thr).1.map Node.id = (qualifying h).map Prod.fst := by
  by_cases hq : qualifying h = []
  · rw [calculate_correlation, if_pos hq, hq]
    rfl
  · have hkept := keptCols_eq h
    have hkne : keptCols h ≠ [] := by
      rw [hkept]
      simpa using hq
    rw [calculate_correlation, if_neg hq]
    simp only [if_neg hkne]
    rw [hkept, List.map_map, List.map_map]
    rfl

/-! ## Title-preservation helper -/

theorem lookupRec_update_history_title (s : Snapshot) (h : HistoryStore) (id : String)
    (r : HistoryRecord) (hr : lookupRec h id = some r) :
    ∃ r', lookupRec (update_history h s) id = some r' ∧ r'.title = r.title := by
  induction s generalizing h r with
  | nil => exact ⟨r, hr, rfl⟩
  | cons kv rest ih =>
    by_cases he : kv.1 = id
    · subst he
      have hstep : lookupRec (updateOne h kv.1 kv.2) kv.1 =
          some (appendPoint (some r) kv.2) := by
        rw [updateOne, hr]
        exact lookupRec_setRec_self _ _ _
      obtain ⟨r', hr', ht⟩ := ih (updateOne h kv.1 kv.2) (appendPoint (some r) kv.2) hstep
      exact ⟨r', hr', by rw [ht]; rfl⟩
    · have hstep : lookupRec (updateOne h kv.1 kv.2) id = lookupRec h id :=
        lookupRec_setRec_ne _ _ _ _ he
      exact ih (updateOne h kv.1 kv.2) r (by rw [hstep]; exact hr)

/-! ## Zero-variance helpers -/

theorem corrVal_none_of_const_left (n : Nat) (cx cy : List (Option ℚ)) (cst : ℚ)
    (hcx : ∀ x ∈ cx, x = none ∨ x = some cst) : corrVal n cx cy = none := by
  apply (corrVal_eq_none_iff n cx cy).mpr
  refine Or.inr (Or.inl ?_)
  apply covOn_zero_of_const_left _ _ _ cst
  intro k hk
  have hks : (cx.getD k none).isSome := by
    simp only [validIdx, Finset.mem_filter] at hk
    exact hk.2.1
  exact colVal_const cx cst hcx k hks

/-- The column of every kept pair member comes from a qualifying series;
if that series is constant, the filled column takes only that value. -/
theorem keptCols_const_values (h : HistoryStore) (c : String × List (Option ℚ))
    (hc : c ∈ keptCols h)
    (hconst : ∀ kv ∈ qualifying h, ∀ pt1 ∈ kv.2.prices, ∀ pt2 ∈ kv.2.prices, pt1.p = pt2.p) :
    ∃ cst, ∀ x ∈ c.2, x = none ∨ x = some cst := by
  obtain ⟨kv, hkv, rfl⟩ := mem_keptCols h c hc
  have h5 := ((mem_qualifying_iff h kv).mp hkv).2
  obtain ⟨pt0, tail, hps⟩ : ∃ pt0 t, kv.2.prices = pt0 :: t := by
    cases hp : kv.2.prices with
    | nil =>
      rw [hp] at h5
      exact absurd h5 (by decide)
    | cons pt0 t => exact ⟨pt0, t, rfl⟩
  refine ⟨pt0.p, ?_⟩
  apply filledCol_const
  intro q hq
  rw [seriesOf, List.mem_map] at hq
  obtain ⟨pt, hpt, rfl⟩ := hq
  exact hconst kv hkv pt hpt pt0 (by rw [hps]; exact List.mem_cons_self _ _)

/-! ## Claims -/

/-- Claim C1, counterexample: `update_history` leaves records absent from the
snapshot untouched, so a store holding an oversized record keeps it: the
claim "after `update`, every record's `prices` length is at most 336" fails
for an arbitrary input store. -/
theorem claim_C1_counterexample :
    ∃ kv ∈ update_history hOversize [], ¬ kv.2.prices.length ≤ WINDOW_MAX :=
  ⟨("X", ⟨"X", List.replicate 337 ⟨"", 1⟩⟩), by decide, by decide⟩

/-- Claim C1, amended: If every record of the input store satisfies the
336-point window invariant, then after `update_history` every record still
does, and each record named by the (duplicate-free) snapshot holds exactly
the last `WINDOW_MAX` entries, in append order, of its old series extended
by the new snapshot point. -/
theorem claim_C1_window_invariant (h : HistoryStore) (s : Snapshot)
    (hinv : ∀ kv ∈ h, kv.2.prices.length ≤ WINDOW_MAX)
    (hnd : (s.map Prod.fst).Nodup) :
    (∀ kv ∈ update_history h s, kv.2.prices.length ≤ WINDOW_MAX) ∧
    (∀ id d, (id, d) ∈ s →
      ∃ r, lookupRec (update_history h s) id = some r ∧
        r.prices = takeLast WINDOW_MAX
          (((lookupRec h id).getD ⟨d.title, []⟩).prices ++ [⟨d.timestamp, d.price⟩])) := by
  refine ⟨update_history_length_le s h hinv, ?_⟩
  intro id d hmem
  refine ⟨appendPoint (lookupRec h id) d,
    lookupRec_update_history_mem s h id d hnd hmem, ?_⟩
  cases hl : lookupRec h id with
  | none => rfl
  | some r => rfl

theorem claim_C1_window_invariant_witness :
    ∃ r, lookupRec (update_history hFull snapX) "X" = some r ∧
      r.prices = takeLast WINDOW_MAX
        (((lookupRec hFull "X").getD ⟨"X retitled", []⟩).prices ++ [⟨"t1", 1⟩]) :=
  (claim_C1_window_invariant hFull snapX (by decide) (by decide)).2 "X"
    ⟨"X retitled", 1, "t1", 1⟩ (by decide)

/-- Claim C3: `calculate_correlation` includes an instrument as a matrix
column / graph node exactly when its series has at least `MIN_SAMPLES`
points (node order being the insertion order of the filtered store), and
when no instrument qualifies it returns the empty pair. -/
theorem claim_C3_min_samples_filter (h : HistoryStore) (thr : ℝ) :
    ((calculate_correlation h thr).1.map Node.id = (qualifying h).map Prod.fst) ∧
    (∀ id, id ∈ (calculate_correlation h thr).1.map Node.id ↔
      ∃ r, (id, r) ∈ h ∧ MIN_SAMPLES ≤ r.prices.length) ∧
    (qualifying h = [] → calculate_correlation h thr = ([], [])) := by
  refine ⟨nodes_ids h thr, ?_, ?_⟩
  · intro id
    rw [nodes_ids h thr]
    constructor
    · intro hid
      rw [List.mem_map] at hid
      obtain ⟨kv, hkv, rfl⟩ := hid
      obtain ⟨hmem, hlen⟩ := (mem_qualifying_iff h kv).mp hkv
      exact ⟨kv.2, hmem, hlen⟩
    · rintro ⟨r, hr, hlen⟩
      exact List.mem_map_of_mem _ ((mem_qualifying_iff h (id, r)).mpr ⟨hr, hlen⟩)
  · intro hq
    rw [calculate_correlation, if_pos hq]

theorem claim_C3_min_samples_filter_witness :
    "A" ∈ (calculate_correlation hPair (1 / 2)).1.map Node.id :=
  ((claim_C3_min_samples_filter hPair (1 / 2)).2.1 "A").mpr
    ⟨⟨"Alpha", [⟨"", 0⟩, ⟨"", 0⟩, ⟨"", 0⟩, ⟨"", 0⟩, ⟨"", 1⟩]⟩, by decide, by decide⟩

/-- Claim C4: The link filter is inclusive: for a defined correlation value
`v`, a link is produced exactly when `|v|` is at least the threshold; in
particular `|v| = thr` is kept (with value `round2 v`) and
`|v| = thr - 0.01` is dropped. -/
theorem claim_C4_threshold_inclusive (thr v : ℝ) (a b : String) :
    ((mkLink thr a b (some v)).isSome ↔ thr ≤ |v|) ∧
    (|v| = thr → mkLink thr a b (some v) = some ⟨a, b, round2 v⟩) ∧
    (|v| = thr - 1 / 100 → mkLink thr a b (some v) = none) := by
  refine ⟨?_, ?_, ?_⟩
  · by_cases hc : thr ≤ |v| <;> simp [mkLink, hc]
  · intro he
    have hc : thr ≤ |v| := le_of_eq he.symm
    simp [mkLink, hc]
  · intro he
    have hc : ¬ thr ≤ |v| := by
      rw [he]
      linarith
    simp [mkLink, hc]

theorem claim_C4_threshold_inclusive_witness :
    mkLink (1 / 2) "a" "b" (some (1 / 2)) = some ⟨"a", "b", round2 (1 / 2)⟩ :=
  (claim_C4_threshold_inclusive (1 / 2) (1 / 2) "a" "b").2.1
    (abs_of_nonneg (by norm_num))

/-- Claim C5: `update_history` never touches a record whose instrument id is
absent from the snapshot: its stored record is unchanged. -/
theorem claim_C5_update_frame (h : HistoryStore) (s : Snapshot) (id : String)
    (hid : id ∉ s.map Prod.fst) :
    lookupRec (update_history h s) id = lookupRec h id :=
  lookupRec_update_history_not_mem s h id hid

theorem claim_C5_update_frame_witness :
    lookupRec (update_history hFull snapX) "Y" = lookupRec hFull "Y" :=
  claim_C5_update_frame hFull snapX "Y" (by decide)

/-- Claim C8: `calculate_correlation` is a pure function of the history value:
value-identical inputs give identical matrices, nodes and links, and the
column order is the insertion order of the filtered store. -/
theorem claim_C8_deterministic (h1 h2 : HistoryStore) (thr : ℝ) (heq : h1 = h2) :
    calculate_correlation h1 thr = calculate_correlation h2 thr ∧
    (∀ i j, matrixEntry h1 i j = matrixEntry h2 i j) ∧
    (calculate_correlation h1 thr).1.map Node.id = (qualifying h1).map Prod.fst := by
  subst heq
  exact ⟨rfl, fun _ _ => rfl, nodes_ids h1 thr⟩

theorem claim_C8_deterministic_witness :
    (calculate_correlation hPair (1 / 2)).1.map Node.id = (qualifying hPair).map Prod.fst :=
  (claim_C8_deterministic hPair hPair (1 / 2) rfl).2.2

/-- Claim C9: An empty snapshot aborts the run before any update or write:
the persisted history and graph are unchanged and the run only reports
that no data was fetched. -/
theorem claim_C9_empty_snapshot_no_op (st : RunState) (thr : ℝ) :
    run_main st [] thr = (st, "⚠️ No data fetched.") := by
  rw [run_main, if_pos rfl]

/-- Claim C10: `update_history` never changes the title of an existing
record, even when the snapshot carries a different title for the same id;
the snapshot's title is used only when creating a brand-new record. -/
theorem claim_C10_title_immutable (h : HistoryStore) (s : Snapshot) (id : String) :
    (∀ r, lookupRec h id = some r →
      ∃ r', lookupRec (update_history h s) id = some r' ∧ r'.title = r.title) ∧
    (∀ d, (s.map Prod.fst).Nodup → (id, d) ∈ s → lookupRec h id = none →
      ∃ r', lookupRec (update_history h s) id = some r' ∧ r'.title = d.title) := by
  constructor
  · intro r hr
    exact lookupRec_update_history_title s h id r hr
  · intro d hnd hmem hnone
    refine ⟨appendPoint (lookupRec h id) d,
      lookupRec_update_history_mem s h id d hnd hmem, ?_⟩
    rw [hnone]
    rfl

theorem claim_C10_title_immutable_witness :
    ∃ r', lookupRec (update_history hFull snapX) "X" = some r' ∧ r'.title = "X" :=
  (claim_C10_title_immutable hFull snapX "X").1 ⟨"X", List.replicate 336 ⟨"", 1⟩⟩ (by decide)

/-- Claim C2: A zero-variance column makes every matrix entry in its row and
its column undefined — never the numeric value `0` — the link loop drops
undefined entries, and a history whose qualifying series are all constant
yields zero links for every threshold. -/
theorem claim_C2_zero_variance_undefined (h : HistoryStore) (thr : ℝ) :
    (∀ i, varAt h i = 0 →
      ∀ j, matrixEntry h i j = none ∧ matrixEntry h j i = none ∧
        matrixEntry h i j ≠ some 0) ∧
    (∀ a b : String, mkLink thr a b none = none) ∧
    ((∀ kv ∈ qualifying h, ∀ pt1 ∈ kv.2.prices, ∀ pt2 ∈ kv.2.prices, pt1.p = pt2.p) →
      (calculate_correlation h thr).2 = []) := by
  refine ⟨?_, fun a b => rfl, ?_⟩
  · intro i hvar j
    rw [varAt] at hvar
    have hconst := covOn_self_eq_zero_const _ _ hvar
    have hsub : validIdx (maxLen h) (colAt h j) (colAt h i) ⊆
        validIdx (maxLen h) (colAt h i) (colAt h i) := by
      rw [validIdx_comm]
      exact validIdx_subset_left _ _ _
    have hij : matrixEntry h i j = none := by
      rw [matrixEntry]
      apply (corrVal_eq_none_iff _ _ _).mpr
      refine Or.inr (Or.inl ?_)
      apply covOn_zero_of_const_left _ _ _
        (meanOn (validIdx (maxLen h) (colAt h i) (colAt h i)) (colVal (colAt h i)))
      intro k hk
      exact hconst k (validIdx_subset_left _ _ _ hk)
    have hji : matrixEntry h j i = none := by
      rw [matrixEntry]
      apply (corrVal_eq_none_iff _ _ _).mpr
      refine Or.inr (Or.inr ?_)
      apply covOn_zero_of_const_left _ _ _
        (meanOn (validIdx (maxLen h) (colAt h i) (colAt h i)) (colVal (colAt h i)))
      intro k hk
      exact hconst k (hsub hk)
    exact ⟨hij, hji, by rw [hij]; simp⟩
  · intro hconst
    by_cases hq : qualifying h = []
    · rw [calculate_correlation, if_pos hq]
    · by_cases hk : keptCols h = []
      · rw [calculate_correlation, if_neg hq]
        simp only [if_pos hk]
      · rw [calculate_correlation, if_neg hq]
        simp only [if_neg hk]
        rw [List.filterMap_eq_nil_iff]
        intro cc hcc
        obtain ⟨cst, hcst⟩ := keptCols_const_values h cc.1
          (mem_of_mem_pairsList _ cc hcc).1 hconst
        rw [corrVal_none_of_const_left (maxLen h) cc.1.2 cc.2.2 cst hcst]
        rfl

theorem claim_C2_zero_variance_undefined_witness :
    (calculate_correlation hConst 0).2 = [] :=
  (claim_C2_zero_variance_undefined hConst 0).2.2 (by decide)

/-- Claim C7, counterexample: The matrix column of a constant qualifying
series exists, but its diagonal entry is undefined (pandas yields `NaN`
when the divisor is zero), not `1.0`: the claim "every diagonal entry
equals 1.0" fails. -/
theorem claim_C7_counterexample :
    0 < (keptCols hConst).length ∧ matrixEntry hConst 0 0 = none ∧
      matrixEntry hConst 0 0 ≠ some 1 := by
  have hnone : matrixEntry hConst 0 0 = none := by
    rw [matrixEntry]
    apply corrVal_none_of_const_left _ _ _ 1
    intro x hx
    rw [show colAt hConst 0 = [some 1, some 1, some 1, some 1, some 1] from by decide] at hx
    simp only [List.mem_cons, List.not_mem_nil, or_false] at hx
    rcases hx with rfl | rfl | rfl | rfl | rfl <;> exact Or.inr rfl
  exact ⟨by decide, hnone, by rw [hnone]; simp⟩

/-- Claim C7, amended: The correlation matrix is symmetric; a diagonal entry
equals `1.0` whenever its column has nonzero variance (a zero-variance
column's diagonal is undefined); every defined entry lies in `[-1, 1]`;
and an undefined entry arises only from an empty valid-row set or a
zero-variance column over those rows. -/
theorem claim_C7_matrix_shape (h : HistoryStore) :
    (∀ i j, matrixEntry h i j = matrixEntry h j i) ∧
    (∀ i, varAt h i ≠ 0 → matrixEntry h i i = some 1) ∧
    (∀ i j v, matrixEntry h i j = some v → |v| ≤ 1 ∧ -1 ≤ v ∧ v ≤ 1) ∧
    (∀ i j, matrixEntry h i j = none →
      validIdx (maxLen h) (colAt h i) (colAt h j) = ∅ ∨
      covOn (validIdx (maxLen h) (colAt h i) (colAt h j))
        (colVal (colAt h i)) (colVal (colAt h i)) = 0 ∨
      covOn (validIdx (maxLen h) (colAt h i) (colAt h j))
        (colVal (colAt h j)) (colVal (colAt h j)) = 0) := by
  refine ⟨?_, ?_, ?_, ?_⟩
  · intro i j
    rw [matrixEntry, matrixEntry]
    exact corrVal_comm _ _ _
  · intro i hv
    rw [varAt] at hv
    rw [matrixEntry]
    exact corrVal_self_eq_one _ _ hv
  · intro i j v hv
    rw [matrixEntry] at hv
    have h1 := corrVal_abs_le_one _ _ _ v hv
    exact ⟨h1, (abs_le.mp h1).1, (abs_le.mp h1).2⟩
  · intro i j hn
    rw [matrixEntry] at hn
    exact (corrVal_eq_none_iff _ _ _).mp hn

theorem claim_C7_matrix_shape_witness :
    matrixEntry hPair 0 0 = some 1 := by
  apply (claim_C7_matrix_shape hPair).2.1 0
  have hc : colAt hPair 0 = [some 0, some 0, some 0, some 0, some 1] := by decide
  have hv : validIdx (maxLen hPair) (colAt hPair 0) (colAt hPair 0) = Finset.range 5 := by
    decide
  rw [varAt, hv, hc]
  simp [covOn, meanOn, Finset.sum_range_succ, colVal]
  norm_num

/-- Claim C6: Every link of the produced graph joins two distinct node ids
that are both present in the node list; its value is the pair's defined
correlation rounded to two decimals, lies in `[-1, 1]`, and never flips
sign; and no unordered pair of ids is linked twice. -/
theorem claim_C6_graph_invariants (h : HistoryStore) (thr : ℝ)
    (hnd : (h.map Prod.fst).Nodup) :
    (∀ l ∈ (calculate_correlation h thr).2,
      l.source ≠ l.target ∧
      l.source ∈ (calculate_correlation h thr).1.map Node.id ∧
      l.target ∈ (calculate_correlation h thr).1.map Node.id ∧
      ∃ a b, (a, b) ∈ pairsList (keptCols h) ∧ l.source = a.1 ∧ l.target = b.1 ∧
        ∃ v, corrVal (maxLen h) a.2 b.2 = some v ∧ thr ≤ |v| ∧ l.value = round2 v ∧
          |v| ≤ 1 ∧ -1 ≤ l.value ∧ l.value ≤ 1 ∧
          (0 ≤ v → 0 ≤ l.value) ∧ (v ≤ 0 → l.value ≤ 0)) ∧
    List.Pairwise (fun l1 l2 =>
      ¬((l1.source = l2.source ∧ l1.target = l2.target) ∨
        (l1.source = l2.target ∧ l1.target = l2.source)))
      (calculate_correlation h thr).2 := by
  have hknd : ((keptCols h).map Prod.fst).Nodup := by
    have h1 : List.Sublist ((keptCols h).map Prod.fst)
        (((qualifying h).map
          (fun kv => (kv.1, filledCol (maxLen h) (seriesOf kv.2)))).map Prod.fst) := by
      rw [keptCols]
      exact (List.filter_sublist _).map Prod.fst
    have h2 : ((qualifying h).map
        (fun kv => (kv.1, filledCol (maxLen h) (seriesOf kv.2)))).map Prod.fst =
        (qualifying h).map Prod.fst := by
      rw [List.map_map]
      rfl
    have h3 : List.Sublist ((qualifying h).map Prod.fst) (h.map Prod.fst) :=
      (List.filter_sublist h).map Prod.fst
    rw [h2] at h1
    exact List.Nodup.sublist (h1.trans h3) hnd
  by_cases hq : qualifying h = []
  · constructor
    · intro l hl
      rw [calculate_correlation, if_pos hq] at hl
      cases hl
    · rw [calculate_correlation, if_pos hq]
      exact List.Pairwise.nil
  by_cases hk : keptCols h = []
  · constructor
    · intro l hl
      rw [calculate_correlation, if_neg hq] at hl
      simp only [if_pos hk] at hl
      cases hl
    · rw [calculate_correlation, if_neg hq]
      simp only [if_pos hk]
      exact List.Pairwise.nil
  have hlinks : (calculate_correlation h thr).2 =
      (pairsList (keptCols h)).filterMap
        (fun cc => mkLink thr cc.1.1 cc.2.1 (corrVal (maxLen h) cc.1.2 cc.2.2)) := by
    rw [calculate_correlation, if_neg hq]
    simp only [if_neg hk]
  have hnodes : (calculate_correlation h thr).1.map Node.id =
      (keptCols h).map Prod.fst := by
    rw [calculate_correlation, if_neg hq]
    simp only [if_neg hk]
    rw [List.map_map]
    rfl
  constructor
  · intro l hl
    rw [hlinks, List.mem_filterMap] at hl
    obtain ⟨cc, hcc, hfc⟩ := hl
    obtain ⟨w, hw, hthr, rfl⟩ := mkLink_some_elim _ _ _ _ _ hfc
    have habs := corrVal_abs_le_one _ _ _ w hw
    have hb := round2_bounds w habs
    refine ⟨pairsList_fst_ne _ hknd cc hcc, ?_, ?_,
      cc.1, cc.2, hcc, rfl, rfl, w, hw, hthr, rfl, habs, hb.1, hb.2,
      fun h0 => round2_nonneg w h0, fun h0 => round2_nonpos w h0⟩
    · rw [hnodes]
      exact List.mem_map_of_mem _ (mem_of_mem_pairsList _ cc hcc).1
    · rw [hnodes]
      exact List.mem_map_of_mem _ (mem_of_mem_pairsList _ cc hcc).2
  · rw [hlinks]
    apply pairwise_filterMap_of_pairwise _ _ _ _ (pairsList_pairwise_keys _ hknd)
    intro a b x y hR hfa hfb
    obtain ⟨v1, _, _, rfl⟩ := mkLink_some_elim _ _ _ _ _ hfa
    obtain ⟨v2, _, _, rfl⟩ := mkLink_some_elim _ _ _ _ _ hfb
    exact hR

theorem claim_C6_graph_invariants_witness :
    List.Pairwise (fun l1 l2 =>
      ¬((l1.source = l2.source ∧ l1.target = l2.target) ∨
        (l1.source = l2.target ∧ l1.target = l2.source)))
      (calculate_correlation hPair (1 / 2)).2 :=
  (claim_C6_graph_invariants hPair (1 / 2) (by decide)).2

end Sigligo
